import Mathlib

/-
Verification of the two text-decoration scripts of this repository.

Strings are embedded as `List Char`; marker/colour codes as `List Char` as
well.  `Colour-Pattern-Generator.py` is embedded by `ensure_tilde`
(the source's tilde-normalisation helper) and `add_prefixes_to_letters`
(the regex-based prefix cycler); `EOM_DYEING.py` by `alternating` and
`triplealternate` (the stride-based variants).
-/

namespace EoM

/-- Word-character test embedding the Python 3 regex class backslash-w
(Unicode alphanumerics plus underscore), as used by the source's
`re.findall` and `re.sub` calls on `str` values, whose default mode is
Unicode matching.  The table is reproduced exactly for the Latin-1 range
U+0000 to U+00FF: the ASCII word characters A-Z, a-z, 0-9 and underscore,
plus the Latin-1 supplement word characters (the letters U+00C0 to U+00D6,
U+00D8 to U+00F6 and U+00F8 to U+00FF, the letters ª µ º, and the numeric
characters ² ³ ¹ ¼ ½ ¾).  Word characters above U+00FF exist in Python's
Unicode table but are not reproduced here; no statement below evaluates the
classifier outside the Latin-1 range. -/
def isWordChar (c : Char) : Bool :=
  decide ((65 ≤ c.toNat ∧ c.toNat ≤ 90) ∨ (97 ≤ c.toNat ∧ c.toNat ≤ 122) ∨
    (48 ≤ c.toNat ∧ c.toNat ≤ 57) ∨ c.toNat = 95 ∨
    c.toNat = 170 ∨ c.toNat = 181 ∨ c.toNat = 186 ∨
    c.toNat = 178 ∨ c.toNat = 179 ∨ c.toNat = 185 ∨
    (188 ≤ c.toNat ∧ c.toNat ≤ 190) ∨ (192 ≤ c.toNat ∧ c.toNat ≤ 214) ∨
    (216 ≤ c.toNat ∧ c.toNat ≤ 246) ∨ (248 ≤ c.toNat ∧ c.toNat ≤ 255))

/-- Embedding of `ensure_tilde_prefix` from `Colour-Pattern-Generator.py`:
walk the marker list, prepending the sentinel `~` to every marker that does
not already start with it. -/
def ensure_tilde : List (List Char) → List (List Char)
  | [] => []
  | p :: ps => (if p.head? = some '~' then p else '~' :: p) :: ensure_tilde ps

/-- Number of decoratable (word) characters in a text: the source's
`len(re.findall(r'\w', text))`. -/
def countWordChars (text : List Char) : Nat :=
  (text.filter isWordChar).length

/-- Embedding of the `re.sub(r'\w', replacer, text)` loop: each word
character is replaced by the next marker of the supply followed by the
character itself; on an exhausted supply (the `StopIteration` fallback) the
character is emitted bare; every other character passes through. -/
def subWithPrefixes : List Char → List (List Char) → List Char
  | [], _ => []
  | c :: cs, ps =>
    if isWordChar c then
      match ps with
      | [] => c :: subWithPrefixes cs []
      | p :: rest => p ++ c :: subWithPrefixes cs rest
    else
      c :: subWithPrefixes cs ps

/-- Embedding of `add_prefixes_to_letters` from
`Colour-Pattern-Generator.py`: empty text or empty marker list is returned
unchanged; otherwise the markers are tilde-normalised, repeated
`total_letters // len + 1` times, and consumed one per word character by
the substitution scan. -/
def add_prefixes_to_letters (text : List Char) (codes : List (List Char)) : List Char :=
  if text = [] ∨ codes = [] then text
  else
    let tilde_codes := ensure_tilde codes
    let total_letters := (text.filter isWordChar).length
    let repetitions_needed := total_letters / tilde_codes.length + 1
    let extended_codes := (List.replicate repetitions_needed tilde_codes).flatten
    subWithPrefixes text extended_codes

/-- The extended marker supply `add_prefixes_to_letters` builds before
scanning (empty in the degenerate branches where no supply is built). -/
def markerSupply (text : List Char) (codes : List (List Char)) : List (List Char) :=
  if text = [] ∨ codes = [] then []
  else
    (List.replicate ((text.filter isWordChar).length / (ensure_tilde codes).length + 1)
      (ensure_tilde codes)).flatten

/-- The markers actually consumed by a call of `add_prefixes_to_letters`:
one marker of the supply per decoratable character, in order. -/
def consumedMarkers (text : List Char) (codes : List (List Char)) : List (List Char) :=
  (markerSupply text codes).take (countWordChars text)

theorem ensure_tilde_length : ∀ ps : List (List Char), (ensure_tilde ps).length = ps.length := by
  intro ps
  induction ps with
  | nil => rfl
  | cons p ps ih => simp [ensure_tilde, ih]

theorem add_prefixes_eq_sub (text : List Char) (codes : List (List Char)) :
    add_prefixes_to_letters text codes =
      if text = [] ∨ codes = [] then text
      else subWithPrefixes text (markerSupply text codes) := by
  by_cases h : text = [] ∨ codes = []
  · simp [add_prefixes_to_letters, markerSupply, h]
  · simp [add_prefixes_to_letters, markerSupply, h]

/-- Claim C1 (corrected): the concrete run
`decorate("Hello World!", ["W1", "W2"])`.  The space and the exclamation
mark pass through unprefixed, the space consumes no marker, and the cycling
continues across it, so `W` receives `~W2`; the resulting string is
`~W1H~W2e~W1l~W2l~W1o ~W2W~W1o~W2r~W1l~W2d!`, not the string quoted in the
claim (which prefixes the space and the exclamation mark). -/
theorem C1_decorate_hello :
    add_prefixes_to_letters "Hello World!".data ["W1".data, "W2".data] =
      "~W1H~W2e~W1l~W2l~W1o ~W2W~W1o~W2r~W1l~W2d!".data := by decide

/-- Claim C1, counterexample: the output string quoted by the claim (taken
from the source's docstring, which prefixes the space and the exclamation
mark) is not what the function produces. -/
theorem C1_counterexample :
    add_prefixes_to_letters "Hello World!".data ["W1".data, "W2".data] ≠
      "~W1H~W2e~W1l~W2l~W1o~W2 ~W1W~W2o~W1r~W2l~W1d~W2!".data := by decide

/-- Claim C4: `decorate` is the identity on its text argument in both
degenerate cases: empty text with any non-empty marker list yields the
empty text, and any text with an empty marker list is returned unchanged. -/
theorem C4_identity :
    (∀ codes : List (List Char), codes ≠ [] → add_prefixes_to_letters [] codes = []) ∧
    (∀ text : List Char, add_prefixes_to_letters text [] = text) := by
  constructor
  · intro codes _
    simp [add_prefixes_to_letters]
  · intro text
    simp [add_prefixes_to_letters]

/-- Claim C4, witness: both identities at concrete inputs. -/
theorem C4_witness :
    add_prefixes_to_letters [] [['~', 'A']] = [] ∧
    add_prefixes_to_letters ['h', '!'] [] = ['h', '!'] :=
  ⟨C4_identity.1 [['~', 'A']] (by decide), C4_identity.2 ['h', '!']⟩

/-- Claim C6: `ensure_tilde` maps each marker that does not start with the
sentinel `~` to `~` prepended to it, leaves markers already starting with
`~` unchanged, preserves length and order exactly (duplicates included),
and sends the empty list to the empty list. -/
theorem C6_normalize_shape :
    ensure_tilde [] = [] ∧
    ∀ ps : List (List Char),
      ensure_tilde ps = ps.map (fun p => if p.head? = some '~' then p else '~' :: p) ∧
      (ensure_tilde ps).length = ps.length := by
  refine ⟨rfl, ?_⟩
  intro ps
  induction ps with
  | nil => simp [ensure_tilde]
  | cons p ps ih => simp [ensure_tilde, ih.1, ih.2]

/-- Chunk view of the substitution scan: one output chunk per input
character, a word character's chunk being its consumed marker followed by
the character (or the bare character once the supply is exhausted), a
pass-through character's chunk being the character alone. -/
def decorateChunks : List Char → List (List Char) → List (List Char)
  | [], _ => []
  | c :: cs, ps =>
    if isWordChar c then
      match ps with
      | [] => [c] :: decorateChunks cs []
      | p :: rest => (p ++ [c]) :: decorateChunks cs rest
    else [c] :: decorateChunks cs ps

/-- Exhaustion-sensitive variant of the substitution scan: it returns
`none` exactly when a word character is reached with an empty marker
supply, i.e. when the source's `StopIteration` fallback would fire. -/
def subWithPrefixesTotal? : List Char → List (List Char) → Option (List Char)
  | [], _ => some []
  | c :: cs, ps =>
    if isWordChar c then
      match ps with
      | [] => none
      | p :: rest => (subWithPrefixesTotal? cs rest).map (fun out => p ++ c :: out)
    else (subWithPrefixesTotal? cs ps).map (fun out => c :: out)

theorem sub_nil : ∀ cs : List Char, subWithPrefixes cs [] = cs := by
  intro cs
  induction cs with
  | nil => rfl
  | cons c cs ih => by_cases hw : isWordChar c <;> simp [subWithPrefixes, hw, ih]

theorem sub_length : ∀ (cs : List Char) (ps : List (List Char)),
    (subWithPrefixes cs ps).length =
      cs.length + ((ps.take (countWordChars cs)).map List.length).sum := by
  intro cs
  induction cs with
  | nil => intro ps; simp [subWithPrefixes, countWordChars]
  | cons c cs ih =>
    intro ps
    by_cases hw : isWordChar c
    · cases ps with
      | nil =>
        simp [subWithPrefixes, hw, ih]
      | cons p rest =>
        simp [subWithPrefixes, hw, ih, countWordChars, List.filter_cons]
        omega
    · simp [subWithPrefixes, hw, ih, countWordChars, List.filter_cons]
      omega

theorem sub_sublist : ∀ (cs : List Char) (ps : List (List Char)),
    List.Sublist cs (subWithPrefixes cs ps) := by
  intro cs
  induction cs with
  | nil => intro ps; simp [subWithPrefixes]
  | cons c cs ih =>
    intro ps
    by_cases hw : isWordChar c
    · cases ps with
      | nil => simpa [subWithPrefixes, hw] using (ih []).cons₂ c
      | cons p rest =>
        simp only [subWithPrefixes, hw, if_true]
        exact ((ih rest).cons₂ c).trans (List.sublist_append_right p _)
    · simpa [subWithPrefixes, hw] using (ih ps).cons₂ c

theorem sub_eq_chunks : ∀ (cs : List Char) (ps : List (List Char)),
    subWithPrefixes cs ps = (decorateChunks cs ps).flatten := by
  intro cs
  induction cs with
  | nil => intro ps; simp [subWithPrefixes, decorateChunks]
  | cons c cs ih =>
    intro ps
    by_cases hw : isWordChar c
    · cases ps with
      | nil => simp [subWithPrefixes, decorateChunks, hw, ih]
      | cons p rest => simp [subWithPrefixes, decorateChunks, hw, ih]
    · simp [subWithPrefixes, decorateChunks, hw, ih]

theorem chunks_dropLast_flatten : ∀ (cs : List Char) (ps : List (List Char)),
    ((decorateChunks cs ps).map (fun ch => ch.drop (ch.length - 1))).flatten = cs := by
  intro cs
  induction cs with
  | nil => intro ps; simp [decorateChunks]
  | cons c cs ih =>
    intro ps
    by_cases hw : isWordChar c
    · cases ps with
      | nil => simp [decorateChunks, hw, ih]
      | cons p rest =>
        simp [decorateChunks, hw, ih, List.length_append, List.drop_left]
    · simp [decorateChunks, hw, ih]

theorem chunks_takeFront_flatten : ∀ (cs : List Char) (ps : List (List Char)),
    ((decorateChunks cs ps).map (fun ch => ch.take (ch.length - 1))).flatten =
      (ps.take (countWordChars cs)).flatten := by
  intro cs
  induction cs with
  | nil => intro ps; simp [decorateChunks, countWordChars]
  | cons c cs ih =>
    intro ps
    by_cases hw : isWordChar c
    · cases ps with
      | nil => simp [decorateChunks, hw, ih, countWordChars, List.filter_cons]
      | cons p rest =>
        simp [decorateChunks, hw, ih, countWordChars, List.filter_cons,
          List.length_append, List.take_left]
    · simp [decorateChunks, hw, ih, countWordChars, List.filter_cons]

theorem sub_total_of_le : ∀ (cs : List Char) (ps : List (List Char)),
    countWordChars cs ≤ ps.length →
    subWithPrefixesTotal? cs ps = some (subWithPrefixes cs ps) := by
  intro cs
  induction cs with
  | nil => intro ps _; simp [subWithPrefixesTotal?, subWithPrefixes]
  | cons c cs ih =>
    intro ps h
    by_cases hw : isWordChar c
    · cases ps with
      | nil =>
        exfalso
        simp [countWordChars, List.filter_cons, hw] at h
      | cons p rest =>
        have h' : countWordChars cs ≤ rest.length := by
          simp only [countWordChars, List.filter_cons, hw, if_true, List.length_cons] at h ⊢
          omega
        simp [subWithPrefixesTotal?, subWithPrefixes, hw, ih rest h']
    · have h' : countWordChars cs ≤ ps.length := by
        simpa [countWordChars, List.filter_cons, hw] using h
      simp [subWithPrefixesTotal?, subWithPrefixes, hw, ih ps h']

theorem markerSupply_length (text : List Char) (codes : List (List Char))
    (ht : text ≠ []) (hc : codes ≠ []) :
    (markerSupply text codes).length =
      (countWordChars text / (ensure_tilde codes).length + 1) * (ensure_tilde codes).length := by
  simp [markerSupply, ht, hc, countWordChars, List.length_flatten, List.map_replicate,
    List.sum_replicate, smul_eq_mul, Nat.mul_comm]

theorem count_le_supply (text : List Char) (codes : List (List Char)) (hc : codes ≠ []) :
    countWordChars text ≤ (markerSupply text codes).length := by
  by_cases ht : text = []
  · subst ht; simp [markerSupply, countWordChars]
  · rw [markerSupply_length text codes ht hc]
    have hL : 0 < (ensure_tilde codes).length := by
      rw [ensure_tilde_length]
      exact List.length_pos.mpr hc
    have h1 := Nat.div_add_mod (countWordChars text) (ensure_tilde codes).length
    have h2 := Nat.mod_lt (countWordChars text) hL
    calc countWordChars text
        = (ensure_tilde codes).length * (countWordChars text / (ensure_tilde codes).length) +
            countWordChars text % (ensure_tilde codes).length := h1.symm
      _ ≤ (ensure_tilde codes).length * (countWordChars text / (ensure_tilde codes).length) +
            (ensure_tilde codes).length := by omega
      _ = (countWordChars text / (ensure_tilde codes).length + 1) *
            (ensure_tilde codes).length := by ring

/-- Claim C2: for every text and marker list, the output length is the
input length plus the total length of the (normalised) markers consumed,
one per decoratable character; and the original characters appear in the
output in their original relative order (the text is a sublist of the
output). -/
theorem C2_length_and_order :
    ∀ (text : List Char) (codes : List (List Char)),
      (add_prefixes_to_letters text codes).length =
        text.length + ((consumedMarkers text codes).map List.length).sum ∧
      List.Sublist text (add_prefixes_to_letters text codes) := by
  intro text codes
  rw [add_prefixes_eq_sub]
  by_cases h : text = [] ∨ codes = []
  · rcases h with h | h
    · subst h
      simp [consumedMarkers, markerSupply, countWordChars]
    · subst h
      simp [consumedMarkers, markerSupply, countWordChars]
  · simp only [if_neg h]
    refine ⟨?_, sub_sublist text _⟩
    rw [sub_length]
    rfl

/-- Claim C3: round-trip.  The output of `decorate` is the flattening of
per-character chunks; erasing from each chunk the inserted marker (keeping
only the chunk's final character) reconstructs the text exactly, and the
erased material is exactly the consumed markers — so `decorate` inserts
markers but never deletes, replaces, or reorders any original character. -/
theorem C3_roundtrip :
    ∀ (text : List Char) (codes : List (List Char)),
      add_prefixes_to_letters text codes =
        (decorateChunks text (markerSupply text codes)).flatten ∧
      ((decorateChunks text (markerSupply text codes)).map
        (fun ch => ch.drop (ch.length - 1))).flatten = text ∧
      ((decorateChunks text (markerSupply text codes)).map
        (fun ch => ch.take (ch.length - 1))).flatten = (consumedMarkers text codes).flatten := by
  intro text codes
  refine ⟨?_, chunks_dropLast_flatten text _, ?_⟩
  · rw [add_prefixes_eq_sub]
    by_cases h : text = [] ∨ codes = []
    · rw [if_pos h, ← sub_eq_chunks]
      rcases h with h | h
      · subst h; simp [subWithPrefixes, markerSupply]
      · subst h; simp [markerSupply, sub_nil]
    · rw [if_neg h]
      exact sub_eq_chunks text _
  · rw [chunks_takeFront_flatten]
    rfl

/-- Claim C5: with a non-empty marker list the repetition count is at least
one, the extended supply covers all decoratable characters
(`R * len >= N`), the supply is at least as long as the decoratable-character
count, and the exhaustion-sensitive scan succeeds — the `StopIteration`
fallback branch is unreachable. -/
theorem C5_supply_sufficient :
    ∀ (text : List Char) (codes : List (List Char)), codes ≠ [] →
      1 ≤ countWordChars text / (ensure_tilde codes).length + 1 ∧
      countWordChars text ≤
        (countWordChars text / (ensure_tilde codes).length + 1) *
          (ensure_tilde codes).length ∧
      countWordChars text ≤ (markerSupply text codes).length ∧
      subWithPrefixesTotal? text (markerSupply text codes) =
        some (add_prefixes_to_letters text codes) := by
  intro text codes hc
  have hsup := count_le_supply text codes hc
  refine ⟨Nat.le_add_left 1 _, ?_, hsup, ?_⟩
  · by_cases ht : text = []
    · subst ht; simp [countWordChars]
    · rw [← markerSupply_length text codes ht hc]
      exact hsup
  · rw [sub_total_of_le text _ hsup, add_prefixes_eq_sub]
    by_cases ht : text = []
    · subst ht; simp [subWithPrefixes]
    · simp [ht, hc]

/-- Claim C5, witness: the sufficiency facts at a concrete input. -/
theorem C5_witness :
    ([['X']] : List (List Char)) ≠ [] ∧
    (1 ≤ countWordChars ['a'] / (ensure_tilde [['X']]).length + 1 ∧
      countWordChars ['a'] ≤
        (countWordChars ['a'] / (ensure_tilde [['X']]).length + 1) *
          (ensure_tilde [['X']]).length ∧
      countWordChars ['a'] ≤ (markerSupply ['a'] [['X']]).length ∧
      subWithPrefixesTotal? ['a'] (markerSupply ['a'] [['X']]) =
        some (add_prefixes_to_letters ['a'] [['X']])) :=
  ⟨by decide, C5_supply_sufficient ['a'] [['X']] (by decide)⟩

/-- Claim C7: tilde-normalisation is idempotent. -/
theorem C7_normalize_idem :
    ∀ ps : List (List Char), ensure_tilde (ensure_tilde ps) = ensure_tilde ps := by
  intro ps
  induction ps with
  | nil => rfl
  | cons p ps ih => by_cases h : p.head? = some '~' <;> simp [ensure_tilde, h, ih]

/-- Claim C8, counterexample: `é` (U+00E9, a non-ASCII Unicode letter) is a
word character for Python 3's default (Unicode) regex mode, so `decorate`
prefixes it instead of passing it through as the claim asserts. -/
theorem C8_counterexample :
    add_prefixes_to_letters ['é'] [['X']] ≠ ['é'] ∧
    add_prefixes_to_letters ['é'] [['X']] = ['~', 'X', 'é'] := by decide

/-- Claim C8 (amended): restricted to ASCII, the decoratable class is
exactly the letters, digits and underscore; but the class is Python 3's
Unicode word-character class, so non-ASCII word characters such as the
letter `é` are decoratable too, not pass-through. -/
theorem C8_ascii_class :
    (∀ c : Char, c.toNat < 128 →
      (isWordChar c = true ↔
        (65 ≤ c.toNat ∧ c.toNat ≤ 90) ∨ (97 ≤ c.toNat ∧ c.toNat ≤ 122) ∨
        (48 ≤ c.toNat ∧ c.toNat ≤ 57) ∨ c.toNat = 95)) ∧
    isWordChar 'é' = true := by
  refine ⟨?_, by decide⟩
  intro c h
  simp only [isWordChar, decide_eq_true_eq]
  omega

/-- Claim C8, witness: the ASCII characterisation applied at `a`. -/
theorem C8_witness : isWordChar 'a' = true :=
  (C8_ascii_class.1 'a' (by decide)).mpr (by decide)

/-- Elements of `text[::2]` — every second character starting at index 0. -/
def everyOther : List Char → List Char
  | [] => []
  | [a] => [a]
  | a :: _ :: rest => a :: everyOther rest

/-- Elements of `text[::4]` — every fourth character starting at index 0. -/
def everyFourth : List Char → List Char
  | [] => []
  | [a] => [a]
  | [a, _] => [a]
  | [a, _, _] => [a]
  | a :: _ :: _ :: _ :: rest => a :: everyFourth rest

/-- One element of a stride group after colouring: a space is kept as-is,
any other character gets the group's colour code prepended. -/
def chunkC (col : List Char) (ch : Char) : List Char :=
  if ch = ' ' then [ch] else col ++ [ch]

/-- Truthiness filter of the `if f:` tests in the `zip_longest` loops: an
empty string (and the `None` fill, represented by absent elements) is
skipped, anything else is kept. -/
def truthy (x : List Char) : List (List Char) :=
  if x = [] then [] else [x]

/-- Truthiness filter applied to the head of a possibly exhausted column
(an exhausted column is `zip_longest`'s `None`, which is skipped). -/
def truthyHead : List (List Char) → List (List Char)
  | [] => []
  | x :: _ => truthy x

/-- Remaining rounds of a `zip_longest` loop once all other columns are
exhausted: the survivors are emitted in order, dropping falsy ones. -/
def restTruthy (xs : List (List Char)) : List (List Char) :=
  (xs.map truthy).flatten

/-- The two-column `zip_longest` emission loop of `alternating`: each round
emits the head of the first column then the head of the second, skipping
exhausted or falsy entries. -/
def interleave2 : List (List Char) → List (List Char) → List (List Char)
  | [], bs => restTruthy bs
  | x :: xs, bs => truthy x ++ truthyHead bs ++ interleave2 xs bs.tail

/-- Three-column round-robin emission (the tail of the four-column loop
once its first column is exhausted). -/
def interleave3 : List (List Char) → List (List Char) → List (List Char) → List (List Char)
  | [], bs, cs => interleave2 bs cs
  | x :: xs, bs, cs =>
      truthy x ++ truthyHead bs ++ truthyHead cs ++ interleave3 xs bs.tail cs.tail

/-- The four-column `zip_longest` emission loop of `triplealternate`. -/
def interleave4 :
    List (List Char) → List (List Char) → List (List Char) → List (List Char) →
      List (List Char)
  | [], bs, cs, ds => interleave3 bs cs ds
  | x :: xs, bs, cs, ds =>
      truthy x ++ truthyHead bs ++ truthyHead cs ++ truthyHead ds ++
        interleave4 xs bs.tail cs.tail ds.tail

/-- Embedding of `alternating` from `EOM_DYEING.py`: the text is split into
the even-index and odd-index stride groups, each group is coloured with its
colour code (spaces excepted), and the groups are re-interleaved with
`zip_longest`. -/
def alternating (text c1 c2 : List Char) : List Char :=
  (interleave2 ((everyOther text).map (chunkC c1))
      ((everyOther (text.drop 1)).map (chunkC c2))).flatten

/-- Embedding of `triplealternate` from `EOM_DYEING.py`: four stride groups
by index mod 4, coloured `c1`, `c2`, `c3` and — for the fourth group —
`c2` again, then re-interleaved with `zip_longest`. -/
def triplealternate (text c1 c2 c3 : List Char) : List Char :=
  (interleave4 ((everyFourth text).map (chunkC c1))
      ((everyFourth (text.drop 1)).map (chunkC c2))
      ((everyFourth (text.drop 2)).map (chunkC c3))
      ((everyFourth (text.drop 3)).map (chunkC c2))).flatten

/-- Position-indexed stripe decoration, written from the spec's words: the
character at absolute index `n` is kept as-is when it is a space and
otherwise receives the colour `cols n`. -/
def stripeIdx (cols : Nat → List Char) : Nat → List Char → List Char
  | _, [] => []
  | n, ch :: rest => chunkC (cols n) ch ++ stripeIdx cols (n + 1) rest

/-- Two-colour rotation form of the stripe decoration. -/
def stripeRot2 (c1 c2 : List Char) : List Char → List Char
  | [] => []
  | ch :: rest => chunkC c1 ch ++ stripeRot2 c2 c1 rest

/-- Four-colour rotation form of the stripe decoration. -/
def stripeRot4 (c1 c2 c3 c4 : List Char) : List Char → List Char
  | [] => []
  | ch :: rest => chunkC c1 ch ++ stripeRot4 c2 c3 c4 c1 rest

theorem chunkC_ne_nil (col : List Char) (ch : Char) : chunkC col ch ≠ [] := by
  unfold chunkC
  split <;> simp

theorem truthy_chunkC (col : List Char) (ch : Char) :
    truthy (chunkC col ch) = [chunkC col ch] := by
  simp [truthy, chunkC_ne_nil]

theorem everyOther_cons (a : Char) (xs : List Char) :
    everyOther (a :: xs) = a :: everyOther (xs.drop 1) := by
  cases xs <;> simp [everyOther]

theorem everyFourth_cons (a : Char) (xs : List Char) :
    everyFourth (a :: xs) = a :: everyFourth (xs.drop 3) := by
  rcases xs with _ | ⟨x1, _ | ⟨x2, _ | ⟨x3, r⟩⟩⟩ <;> simp [everyFourth]

theorem alternating_nil (c1 c2 : List Char) : alternating [] c1 c2 = [] := by
  simp [alternating, everyOther, interleave2, restTruthy]

theorem alternating_one (a : Char) (c1 c2 : List Char) :
    alternating [a] c1 c2 = chunkC c1 a := by
  simp [alternating, everyOther, interleave2, restTruthy, truthy_chunkC, truthyHead]

theorem alternating_cons2 (a b : Char) (rest c1 c2 : List Char) :
    alternating (a :: b :: rest) c1 c2 =
      chunkC c1 a ++ chunkC c2 b ++ alternating rest c1 c2 := by
  simp only [alternating, List.drop_succ_cons, List.drop_zero]
  rw [everyOther_cons a (b :: rest), everyOther_cons b rest]
  simp [interleave2, truthyHead, truthy_chunkC, List.append_assoc]

theorem alternating_eq_rot : ∀ (text c1 c2 : List Char),
    alternating text c1 c2 = stripeRot2 c1 c2 text
  | [], c1, c2 => by simp [alternating_nil, stripeRot2]
  | [a], c1, c2 => by simp [alternating_one, stripeRot2]
  | a :: b :: rest, c1, c2 => by
      rw [alternating_cons2, alternating_eq_rot rest c1 c2]
      simp [stripeRot2, List.append_assoc]

theorem stripeIdx_eq_rot2 (cols : Nat → List Char)
    (hper : ∀ m, cols (m + 2) = cols m) :
    ∀ (text : List Char) (n : Nat),
      stripeIdx cols n text = stripeRot2 (cols n) (cols (n + 1)) text := by
  intro text
  induction text with
  | nil => intro n; simp [stripeIdx, stripeRot2]
  | cons ch rest ih =>
    intro n
    rw [stripeIdx, stripeRot2, ih (n + 1)]
    have h2 : cols (n + 1 + 1) = cols n := by
      have := hper n
      simpa [Nat.add_assoc] using this
    rw [h2]

theorem sublist_stripeRot2 : ∀ (text c1 c2 : List Char),
    List.Sublist text (stripeRot2 c1 c2 text)
  | [], _, _ => List.Sublist.refl []
  | ch :: rest, c1, c2 => by
      rw [stripeRot2]
      have hch : List.Sublist [ch] (chunkC c1 ch) := by
        unfold chunkC
        split
        · exact List.Sublist.refl [ch]
        · exact List.sublist_append_right _ [ch]
      exact List.Sublist.append hch (sublist_stripeRot2 rest c2 c1)

/-- Claim C9, counterexample: in `alternating` a space is not prefixed,
while the claim asserts that every character at an even index is emitted
with prefix `c1`; at the one-character text consisting of a space the
output is the bare space, not `c1` followed by the space. -/
theorem C9_counterexample :
    alternating [' '] "~A".data "~B".data = [' '] ∧
    alternating [' '] "~A".data "~B".data ≠ "~A ".data := by
  constructor
  · simp [alternating_one, chunkC]
  · simp [alternating_one, chunkC]

/-- Claim C9 (amended): `alternating` assigns colours by absolute character
position over all character classes except the space: the character at
index `i` is emitted with prefix `c1` when `i` is even and `c2` when `i` is
odd, spaces pass through unprefixed, and the original characters appear in
the output in their original order. -/
theorem C9_positional :
    ∀ (text c1 c2 : List Char),
      alternating text c1 c2 =
        stripeIdx (fun i => if i % 2 = 0 then c1 else c2) 0 text ∧
      List.Sublist text (alternating text c1 c2) := by
  intro text c1 c2
  have hper : ∀ m, (fun i => if i % 2 = 0 then c1 else c2) (m + 2) =
      (fun i => if i % 2 = 0 then c1 else c2) m := by
    intro m
    simp [Nat.add_mod]
  rw [alternating_eq_rot, stripeIdx_eq_rot2 _ hper text 0]
  exact ⟨rfl, sublist_stripeRot2 text c1 c2⟩

theorem triplealternate_nil (c1 c2 c3 : List Char) : triplealternate [] c1 c2 c3 = [] := by
  simp [triplealternate, everyFourth, interleave4, interleave3, interleave2, restTruthy]

theorem triplealternate_one (a : Char) (c1 c2 c3 : List Char) :
    triplealternate [a] c1 c2 c3 = chunkC c1 a := by
  simp [triplealternate, everyFourth, interleave4, interleave3, interleave2, restTruthy,
    truthy_chunkC, truthyHead]

theorem triplealternate_two (a b : Char) (c1 c2 c3 : List Char) :
    triplealternate [a, b] c1 c2 c3 = chunkC c1 a ++ chunkC c2 b := by
  simp [triplealternate, everyFourth, interleave4, interleave3, interleave2, restTruthy,
    truthy_chunkC, truthyHead]

theorem triplealternate_three (a b c : Char) (c1 c2 c3 : List Char) :
    triplealternate [a, b, c] c1 c2 c3 = chunkC c1 a ++ chunkC c2 b ++ chunkC c3 c := by
  simp [triplealternate, everyFourth, interleave4, interleave3, interleave2, restTruthy,
    truthy_chunkC, truthyHead, List.append_assoc]

theorem triplealternate_cons4 (a b c d : Char) (rest c1 c2 c3 : List Char) :
    triplealternate (a :: b :: c :: d :: rest) c1 c2 c3 =
      chunkC c1 a ++ chunkC c2 b ++ chunkC c3 c ++ chunkC c2 d ++
        triplealternate rest c1 c2 c3 := by
  simp only [triplealternate, List.drop_succ_cons, List.drop_zero]
  rw [everyFourth_cons a (b :: c :: d :: rest), everyFourth_cons b (c :: d :: rest),
    everyFourth_cons c (d :: rest), everyFourth_cons d rest]
  simp [List.drop_succ_cons, List.drop_zero, interleave4, truthyHead, truthy_chunkC,
    List.append_assoc]

theorem triplealternate_eq_rot : ∀ (text c1 c2 c3 : List Char),
    triplealternate text c1 c2 c3 = stripeRot4 c1 c2 c3 c2 text
  | [], c1, c2, c3 => by simp [triplealternate_nil, stripeRot4]
  | [a], c1, c2, c3 => by simp [triplealternate_one, stripeRot4]
  | [a, b], c1, c2, c3 => by
      simp [triplealternate_two, stripeRot4, List.append_assoc]
  | [a, b, c], c1, c2, c3 => by
      simp [triplealternate_three, stripeRot4, List.append_assoc]
  | a :: b :: c :: d :: rest, c1, c2, c3 => by
      rw [triplealternate_cons4, triplealternate_eq_rot rest c1 c2 c3]
      simp [stripeRot4, List.append_assoc]

theorem stripeIdx_eq_rot4 (cols : Nat → List Char)
    (hper : ∀ m, cols (m + 4) = cols m) :
    ∀ (text : List Char) (n : Nat),
      stripeIdx cols n text =
        stripeRot4 (cols n) (cols (n + 1)) (cols (n + 2)) (cols (n + 3)) text := by
  intro text
  induction text with
  | nil => intro n; simp [stripeIdx, stripeRot4]
  | cons ch rest ih =>
    intro n
    rw [stripeIdx, stripeRot4, ih (n + 1)]
    have e1 : n + 1 + 1 = n + 2 := rfl
    have e2 : n + 1 + 2 = n + 3 := rfl
    have e3 : n + 1 + 3 = n + 4 := rfl
    rw [e1, e2, e3, hper n]

/-- Claim C10: in `triplealternate` the positional colour cycle is
`c1, c2, c3, c2` — the character at absolute index `i` is prefixed with
`c1` when `i % 4 = 0`, with `c2` when `i % 4 = 1`, with `c3` when
`i % 4 = 2`, and again with `c2` (not a fourth colour) when `i % 4 = 3`;
space characters pass through unprefixed in every position group. -/
theorem C10_cycle :
    ∀ (text c1 c2 c3 : List Char),
      triplealternate text c1 c2 c3 =
        stripeIdx
          (fun i => if i % 4 = 0 then c1 else if i % 4 = 1 then c2
            else if i % 4 = 2 then c3 else c2) 0 text := by
  intro text c1 c2 c3
  have hper : ∀ m,
      (fun i => if i % 4 = 0 then c1 else if i % 4 = 1 then c2
        else if i % 4 = 2 then c3 else c2) (m + 4) =
      (fun i => if i % 4 = 0 then c1 else if i % 4 = 1 then c2
        else if i % 4 = 2 then c3 else c2) m := by
    intro m
    simp [Nat.add_mod]
  rw [triplealternate_eq_rot, stripeIdx_eq_rot4 _ hper text 0]
  norm_num

end EoM
